import Mathlib

/-!
Verification of the time-alignment and statistical aggregation pipeline of the
notebook `05-Advanced-analysis-pandas-flopy.ipynb`.  Each notebook cell that the
specification describes is embedded as an executable Lean definition
(timestamps and flows become rationals, NaN cells become `Option`), and the
specified properties are proved about those definitions.
-/

namespace FlopyNB

/-- Embeds the kstp/kper construction loop (notebook cell with
`for i, nstp in enumerate(m.dis.nstp.array): for j in range(nstp): kstp.append(j); kper.append(i)`):
a fold over the enumerated step counts that appends the inner-loop ranges to the
two accumulator lists. -/
def kstpKperLoop (nstpArr : List ℕ) : List ℕ × List ℕ :=
  nstpArr.enum.foldl
    (fun acc p => (acc.1 ++ List.range p.2, acc.2 ++ List.replicate p.2 p.1))
    ([], [])

/-- The (period, step) pairs assigned to the output rows: row r is tagged
(kper r, kstp r). -/
def stressPeriodPairs (nstpArr : List ℕ) : List (ℕ × ℕ) :=
  (kstpKperLoop nstpArr).2.zip (kstpKperLoop nstpArr).1

theorem foldl_pair_append {α : Type} (f g : α → List ℕ) :
    ∀ (l : List α) (a b : List ℕ),
      l.foldl (fun acc p => (acc.1 ++ f p, acc.2 ++ g p)) (a, b) =
        (a ++ l.flatMap f, b ++ l.flatMap g)
  | [], a, b => by simp
  | x :: t, a, b => by
    simp only [List.foldl_cons, List.flatMap_cons]
    rw [foldl_pair_append f g t]
    simp [List.append_assoc]

theorem zip_replicate_range (i n : ℕ) :
    (List.replicate n i).zip (List.range n) = (List.range n).map (fun j => (i, j)) := by
  induction n with
  | zero => simp
  | succ n ih =>
      rw [List.range_succ, List.replicate_succ']
      rw [List.zip_append (by simp), ih, List.map_append]
      simp

theorem zip_flatMap_ranges :
    ∀ l : List (ℕ × ℕ),
      (l.flatMap fun p => List.replicate p.2 p.1).zip (l.flatMap fun p => List.range p.2) =
        l.flatMap fun p => (List.range p.2).map (fun j => (p.1, j))
  | [] => by simp
  | p :: t => by
    simp only [List.flatMap_cons]
    rw [List.zip_append (by simp), zip_flatMap_ranges t, zip_replicate_range]

/-- C1: the Stress-Period Resolver equals the flattening of the jagged ranges
[0..nstp i) tagged with their period index i; it therefore produces exactly
sum nstp pairs in row order with step resetting at each period boundary, a
zero-step period contributes no pairs, and later rows keep their true period
index (example: [2,0,3]). -/
theorem C1_stress_period_resolver :
    (∀ nstpArr : List ℕ,
        stressPeriodPairs nstpArr =
          nstpArr.enum.flatMap (fun p => (List.range p.2).map (fun j => (p.1, j))) ∧
        (stressPeriodPairs nstpArr).length = nstpArr.sum) ∧
    stressPeriodPairs [2, 3] = [(0,0), (0,1), (1,0), (1,1), (1,2)] ∧
    stressPeriodPairs [2, 0, 3] = [(0,0), (0,1), (2,0), (2,1), (2,2)] := by
  refine ⟨fun nstpArr => ?_, by decide, by decide⟩
  have hloop : kstpKperLoop nstpArr =
      (nstpArr.enum.flatMap fun p => List.range p.2,
       nstpArr.enum.flatMap fun p => List.replicate p.2 p.1) := by
    unfold kstpKperLoop
    rw [foldl_pair_append]
    simp
  have hpairs : stressPeriodPairs nstpArr =
      nstpArr.enum.flatMap fun p => (List.range p.2).map (fun j => (p.1, j)) := by
    unfold stressPeriodPairs
    rw [hloop]
    exact zip_flatMap_ranges nstpArr.enum
  refine ⟨hpairs, ?_⟩
  rw [hpairs, List.length_flatMap]
  have h2 : nstpArr.enum.map (List.length ∘ fun p => (List.range p.2).map (fun j => (p.1, j)))
      = nstpArr.enum.map Prod.snd :=
    List.map_congr_left (fun p _ => by simp [Function.comp])
  rw [h2, List.enum_map_snd]

/-- Gregorian calendar to epoch-day count (days since 1970-01-01), the standard
days-from-civil algorithm; a pandas Timestamp is this day count (scaled to
nanoseconds), so calendar dates are modelled as rational day counts. -/
def daysFromCivil (y m d : ℤ) : ℤ :=
  let y2 := if m ≤ 2 then y - 1 else y
  let era := y2.fdiv 400
  let yoe := y2 - era * 400
  let mp := (m + 9) % 12
  let doy := (153 * mp + 2).fdiv 5 + d - 1
  let doe := yoe * 365 + yoe.fdiv 4 - yoe.fdiv 100 + doy
  era * 146097 + doe - 719468

/-- Embeds the datetime construction
`ggo['datetime'] = pd.to_timedelta(ggo.time, unit='D') + start_ts`: an
elapsed-day offset is added to the start timestamp, both measured in
(fractional) days. -/
def timeMapper (startTs : ℚ) (delta : ℚ) : ℚ := startTs + delta

/-- Elapsed days recovered from a calendar timestamp and the start date:
the inverse direction of the datetime construction. -/
def elapsedDays (startTs : ℚ) (ts : ℚ) : ℚ := ts - startTs

/-- C5: the Time Mapper adds the (possibly fractional) day offset exactly, so
sub-daily resolution is kept, and 2014-01-01 plus 59.5 days is noon of
2014-03-01. -/
theorem C5_time_mapper :
    (∀ t0 d : ℚ, elapsedDays t0 (timeMapper t0 d) = d) ∧
    timeMapper ((daysFromCivil 2014 1 1 : ℤ) : ℚ) (119 / 2) =
      ((daysFromCivil 2014 3 1 : ℤ) : ℚ) + 12 / 24 := by
  constructor
  · intro t0 d
    unfold timeMapper elapsedDays
    ring
  · have h1 : daysFromCivil 2014 1 1 = 16071 := by decide
    have h2 : daysFromCivil 2014 3 1 = 16130 := by decide
    rw [h1, h2]
    unfold timeMapper
    norm_num

/-- C6: converting a series of elapsed-day offsets to calendar timestamps and
back (with the same start date) recovers the original offsets exactly — in the
rational-number model the round trip is the identity, hence certainly within
floating-point tolerance. -/
theorem C6_time_roundtrip :
    ∀ (t0 : ℚ) (ds : List ℚ),
      (ds.map (timeMapper t0)).map (elapsedDays t0) = ds := by
  intro t0 ds
  rw [List.map_map]
  have h : (elapsedDays t0 ∘ timeMapper t0) = id := by
    funext d
    simp [timeMapper, elapsedDays]
  rw [h, List.map_id]

/-- A row of the streamflow-routing (SFR) output table `sfrobj.df`. -/
structure SfrRow where
  segment : ℕ
  kstpkper : ℕ × ℕ
  i : ℕ
  j : ℕ
  Qout : ℚ
  Qaquifer : ℚ
deriving DecidableEq

/-- A row of the SFR reach-data table `rd = pd.DataFrame(m.sfr.reach_data)`. -/
structure ReachRow where
  iseg : ℕ
  rchlen : ℚ
deriving DecidableEq

/-- Embeds the boolean-mask selection
`seg11 = sfrdata.loc[(sfrdata.segment == 11) & (sfrdata.kstpkper == (4, 6)), ['Qout', 'Qaquifer']]`. -/
def selectSegKstpkper (tbl : List SfrRow) (seg : ℕ) (kk : ℕ × ℕ) : List (ℚ × ℚ) :=
  (tbl.filter (fun r => decide (r.segment = seg ∧ r.kstpkper = kk))).map
    (fun r => (r.Qout, r.Qaquifer))

/-- Embeds the boolean-mask selection `rd.loc[rd.iseg == 11, 'rchlen']`. -/
def selectRchlen (tbl : List ReachRow) (seg : ℕ) : List ℚ :=
  (tbl.filter (fun r => decide (r.iseg = seg))).map ReachRow.rchlen

/-- C7: a filter key matching no rows yields an empty result (no error): both
boolean-mask selections return the empty list whenever no row satisfies the
key. -/
theorem C7_empty_filter_results (tbl : List SfrRow) (rd : List ReachRow)
    (seg : ℕ) (kk : ℕ × ℕ) (iseg : ℕ)
    (h1 : ∀ r ∈ tbl, ¬(r.segment = seg ∧ r.kstpkper = kk))
    (h2 : ∀ r ∈ rd, r.iseg ≠ iseg) :
    selectSegKstpkper tbl seg kk = [] ∧ selectRchlen rd iseg = [] := by
  constructor
  · unfold selectSegKstpkper
    rw [List.filter_eq_nil_iff.mpr ?_]
    · simp
    · intro r hr
      simpa using h1 r hr
  · unfold selectRchlen
    rw [List.filter_eq_nil_iff.mpr ?_]
    · simp
    · intro r hr
      simpa using h2 r hr

/-- Witness for C7 at a concrete one-row table and absent keys. -/
theorem C7_empty_filter_results_witness :
    selectSegKstpkper [⟨3, (0, 0), 1, 1, 5, 7⟩] 11 (4, 6) = [] ∧
    selectRchlen [⟨3, 10⟩] 11 = [] :=
  C7_empty_filter_results [⟨3, (0, 0), 1, 1, 5, 7⟩] [⟨3, 10⟩] 11 (4, 6) 11
    (by decide) (by decide)

/-- A row of the observed-data table `df`: a calendar date (from column 2,
made the index) and a flow value (column 4). -/
structure ObsRow where
  year : ℕ
  month : ℕ
  day : ℕ
  value : ℚ
deriving DecidableEq

/-- Embeds `quant = df[4].quantile(qthresh)`: pandas' default quantile with
linear interpolation between order statistics — with s the sorted values and
h = (len s - 1) * q, the result is s ⌊h⌋ + (h - ⌊h⌋) * (s (⌊h⌋+1) - s ⌊h⌋). -/
def quantileLinear (xs : List ℚ) (q : ℚ) : ℚ :=
  let s := xs.insertionSort (· ≤ ·)
  let h : ℚ := ((s.length : ℚ) - 1) * q
  let k : ℕ := (⌊h⌋).toNat
  let lo := s.getD k 0
  let hi := s.getD (k + 1) lo
  lo + (h - (k : ℚ)) * (hi - lo)

/-- Embeds `dfq = df[4].loc[df[4] < quant]`: keep exactly the rows whose value
is strictly below the quantile of all values. -/
def dfqFilter (rows : List ObsRow) (q : ℚ) : List ObsRow :=
  let quant := quantileLinear (rows.map ObsRow.value) q
  rows.filter (fun r => decide (r.value < quant))

/-- Embeds `dfm = dfq.groupby(dfq.index.month).mean()`: group by calendar month
(ignoring year, months in ascending order as pandas sorts group keys) and take
the arithmetic mean of each group. -/
def monthlyMean (rows : List ObsRow) : List (ℕ × ℚ) :=
  (((rows.map ObsRow.month).dedup).insertionSort (· ≤ ·)).map
    (fun mo =>
      let vs := (rows.filter (fun r => decide (r.month = mo))).map ObsRow.value
      (mo, vs.sum / (vs.length : ℚ)))

/-- The composed Quantile Filter + Monthly Averager pipeline. -/
def quantileMonthly (rows : List ObsRow) (q : ℚ) : List (ℕ × ℚ) :=
  monthlyMean (dfqFilter rows q)

/-- Ten observed rows with values 1..10, all in January 2014. -/
def obsTen : List ObsRow :=
  [⟨2014, 1, 1, 1⟩, ⟨2014, 1, 2, 2⟩, ⟨2014, 1, 3, 3⟩, ⟨2014, 1, 4, 4⟩,
   ⟨2014, 1, 5, 5⟩, ⟨2014, 1, 6, 6⟩, ⟨2014, 1, 7, 7⟩, ⟨2014, 1, 8, 8⟩,
   ⟨2014, 1, 9, 9⟩, ⟨2014, 1, 10, 10⟩]

unseal Rat.add Rat.mul Rat.inv Rat.sub

/-- C3: the 0.5-quantile of 1..10 under linear interpolation is 5.5 and the
filter retains exactly the values 1..5; in general a row is retained iff its
value is strictly below the quantile of all values (so values equal to the
quantile are dropped); the Monthly Averager returns, for each month that
occurs (ascending, ignoring year), the arithmetic mean of that month's
retained values. -/
theorem C3_quantile_filter_monthly :
    quantileLinear (obsTen.map ObsRow.value) (1 / 2) = 11 / 2 ∧
    (dfqFilter obsTen (1 / 2)).map ObsRow.value = [1, 2, 3, 4, 5] ∧
    (∀ (rows : List ObsRow) (q : ℚ) (r : ObsRow),
      r ∈ dfqFilter rows q ↔
        r ∈ rows ∧ r.value < quantileLinear (rows.map ObsRow.value) q) ∧
    (∀ (rows : List ObsRow) (mo : ℕ) (mu : ℚ),
      (mo, mu) ∈ monthlyMean rows ↔
        mo ∈ rows.map ObsRow.month ∧
        mu = (((rows.filter (fun r => decide (r.month = mo))).map ObsRow.value).sum /
          (((rows.filter (fun r => decide (r.month = mo))).map ObsRow.value).length : ℚ))) ∧
    monthlyMean [⟨2014, 3, 1, 10⟩, ⟨2015, 3, 5, 20⟩] = [(3, 15)] := by
  refine ⟨by decide, by decide, ?_, ?_, by decide⟩
  · intro rows q r
    unfold dfqFilter
    simp [List.mem_filter]
  · intro rows mo mu
    unfold monthlyMean
    simp only [List.mem_map, List.mem_insertionSort, List.mem_dedup, Prod.mk.injEq]
    constructor
    · rintro ⟨k, hk, hkm, hmu⟩
      exact ⟨hkm ▸ hk, hmu.symm ▸ (by rw [hkm])⟩
    · rintro ⟨hmo, hmu⟩
      exact ⟨mo, hmo, rfl, hmu.symm⟩

/-- C4: a month with no retained rows is absent from the Monthly Averager's
result — the result maps only months that actually occur among the retained
rows. -/
theorem C4_empty_month_absent (rows : List ObsRow) (q : ℚ) (mo : ℕ)
    (h : ∀ r ∈ dfqFilter rows q, r.month ≠ mo) :
    mo ∉ (quantileMonthly rows q).map Prod.fst := by
  unfold quantileMonthly monthlyMean
  rw [List.map_map]
  intro hmem
  simp only [Function.comp, List.mem_map, List.mem_insertionSort, List.mem_dedup] at hmem
  obtain ⟨a, ⟨r, hr, hrm⟩, ham⟩ := hmem
  exact h r hr (by rw [hrm, ham])

/-- Witness for C4: with values 1 and 10 in months 1 and 2 and q = 0.5, month 2
survives no row and is absent from the result. -/
theorem C4_empty_month_absent_witness :
    2 ∉ (quantileMonthly [⟨2014, 1, 1, 1⟩, ⟨2014, 2, 1, 10⟩] (1 / 2)).map Prod.fst :=
  C4_empty_month_absent [⟨2014, 1, 1, 1⟩, ⟨2014, 2, 1, 10⟩] (1 / 2) 2 (by decide)

/-- Number of days of a Gregorian calendar month. -/
def monthLen (y m : ℕ) : ℕ :=
  if m = 2 then (if y % 4 = 0 ∧ (y % 100 ≠ 0 ∨ y % 400 = 0) then 29 else 28)
  else if m = 4 ∨ m = 6 ∨ m = 9 ∨ m = 11 then 30 else 31

/-- Embeds `pd.date_range(start, end, freq='M')` for month-start boundary
strings: the end-of-month dates (y, m, last day) of every month from the start
month up to but excluding the end month. -/
def monthEndRange (y1 m1 y2 m2 : ℕ) : List (ℕ × ℕ × ℕ) :=
  (List.range ((y2 * 12 + (m2 - 1)) - (y1 * 12 + (m1 - 1)))).map
    (fun k =>
      let t := y1 * 12 + (m1 - 1) + k
      (t / 12, t % 12 + 1, monthLen (t / 12) (t % 12 + 1)))

/-- The anchor dates of the notebook, `pd.date_range('2014-03', '2015-01', freq='M')`. -/
def anchorMonthEnds : List (ℕ × ℕ × ℕ) := monthEndRange 2014 3 2015 1

/-- The error pandas raises on assigning an index of the wrong length. -/
inductive AlignErr where
  | lengthMismatch : ℕ → ℕ → AlignErr
deriving DecidableEq

/-- Embeds `dfm.index = pd.date_range('2014-03', '2015-01', freq='M')`: pandas
index assignment is purely positional (the k-th row gets the k-th new label,
whatever its old label was) and raises a length-mismatch ValueError when the
new index and the frame disagree in length. -/
def assignMonthEndIndex (dfm : List (ℕ × ℚ)) :
    Except AlignErr (List ((ℕ × ℕ × ℕ) × ℚ)) :=
  if anchorMonthEnds.length = dfm.length then
    Except.ok (anchorMonthEnds.zip (dfm.map Prod.snd))
  else
    Except.error (AlignErr.lengthMismatch anchorMonthEnds.length dfm.length)

/-- C9: the anchor sequence is exactly the ten end-of-month dates 2014-03-31 …
2014-12-31; a ten-row monthly-mean series is re-indexed purely by position
(month labels are discarded, the k-th group gets the k-th anchor); any other
length raises a length-mismatch error rather than aligning partially; and the
monthly-mean series has exactly one row per distinct retained month. -/
theorem C9_alignment (dfm : List (ℕ × ℚ)) :
    anchorMonthEnds =
      [(2014, 3, 31), (2014, 4, 30), (2014, 5, 31), (2014, 6, 30), (2014, 7, 31),
       (2014, 8, 31), (2014, 9, 30), (2014, 10, 31), (2014, 11, 30), (2014, 12, 31)] ∧
    (dfm.length = 10 →
      assignMonthEndIndex dfm = Except.ok (anchorMonthEnds.zip (dfm.map Prod.snd))) ∧
    (dfm.length ≠ 10 →
      assignMonthEndIndex dfm = Except.error (AlignErr.lengthMismatch 10 dfm.length)) ∧
    (∀ (rows : List ObsRow) (q : ℚ),
      (quantileMonthly rows q).length = ((dfqFilter rows q).map ObsRow.month).dedup.length) := by
  have hanch : anchorMonthEnds =
      [(2014, 3, 31), (2014, 4, 30), (2014, 5, 31), (2014, 6, 30), (2014, 7, 31),
       (2014, 8, 31), (2014, 9, 30), (2014, 10, 31), (2014, 11, 30), (2014, 12, 31)] := by
    decide
  have hlen : anchorMonthEnds.length = 10 := by rw [hanch]; rfl
  refine ⟨hanch, ?_, ?_, ?_⟩
  · intro h10
    unfold assignMonthEndIndex
    rw [if_pos (by rw [hlen, h10])]
  · intro hne
    unfold assignMonthEndIndex
    rw [if_neg (by rw [hlen]; exact fun h => hne h.symm), hlen]
  · intro rows q
    unfold quantileMonthly monthlyMean
    rw [List.length_map, List.length_insertionSort]

/-- Witness for C9: a ten-row series is re-indexed positionally, a one-row
series raises the length mismatch. -/
theorem C9_alignment_witness :
    assignMonthEndIndex
        [(3, 1), (4, 2), (5, 3), (6, 4), (7, 5), (8, 6), (9, 7), (10, 8), (11, 9), (12, 10)] =
      Except.ok (anchorMonthEnds.zip
        ([(3, (1:ℚ)), (4, 2), (5, 3), (6, 4), (7, 5), (8, 6), (9, 7), (10, 8), (11, 9),
          (12, 10)].map Prod.snd)) ∧
    assignMonthEndIndex [(1, (5 : ℚ))] = Except.error (AlignErr.lengthMismatch 10 1) :=
  ⟨(C9_alignment
      [(3, 1), (4, 2), (5, 3), (6, 4), (7, 5), (8, 6), (9, 7), (10, 8), (11, 9), (12, 10)]).2.1
      (by decide),
   (C9_alignment [(1, (5 : ℚ))]).2.2.1 (by decide)⟩

/-- A single grid cell: `none` is the NaN background of
`arr = np.zeros((nrow, ncol)) * np.nan`, `some v` a written flux value. -/
abbrev Cell := Option ℚ

/-- Embeds the array construction `arr[i, j] = qgw` over the NaN background:
the grid holds, at (i, j), the last Qaquifer value written there, and `none`
where no stream reach wrote. -/
def buildQaquiferArr (nrow ncol : ℕ) (cells : List (ℕ × ℕ × ℚ)) : List (List Cell) :=
  (List.range nrow).map (fun i =>
    (List.range ncol).map (fun j =>
      ((cells.filter (fun c => decide (c.1 = i ∧ c.2.1 = j))).getLast?).map
        (fun c => c.2.2)))

/-- Embeds `losing[losing <= 0] = np.nan` on one cell: a written value v is
kept iff v > 0 is true in numpy's comparison semantics (`v <= 0` selects it
for erasure; a NaN cell compares false and stays NaN). -/
def losingCell (c : Cell) : Cell :=
  match c with
  | some v => if v ≤ 0 then none else some v
  | none => none

/-- Embeds `gaining[gaining >= 0] = np.nan` on one cell. -/
def gainingCell (c : Cell) : Cell :=
  match c with
  | some v => if 0 ≤ v then none else some v
  | none => none

/-- Embeds the elementwise masking on the whole grid. -/
def losingArr (arr : List (List Cell)) : List (List Cell) :=
  arr.map (List.map losingCell)

/-- Embeds the gaining mask on the whole grid. -/
def gainingArr (arr : List (List Cell)) : List (List Cell) :=
  arr.map (List.map gainingCell)

/-- Cell lookup in a grid. -/
def cellAt (arr : List (List Cell)) (i j : ℕ) : Option Cell :=
  arr[i]?.bind (fun row => row[j]?)

theorem cellAt_map (f : Cell → Cell) (arr : List (List Cell)) (i j : ℕ) :
    cellAt (arr.map (List.map f)) i j = (cellAt arr i j).map f := by
  unfold cellAt
  rw [List.getElem?_map]
  cases arr[i]? with
  | none => rfl
  | some row => simp [List.getElem?_map]

/-- C10: a written cell is kept by the losing mask iff its flux is strictly
positive and by the gaining mask iff strictly negative, so no cell appears in
both, zero-flux cells appear in neither, and a cell never written by a stream
reach (NaN background, in particular any in-range cell no SFR record covers)
is `none` in both masks. -/
theorem C10_losing_gaining (arr : List (List Cell)) (i j : ℕ)
    (nrow ncol : ℕ) (cells : List (ℕ × ℕ × ℚ))
    (hi : i < nrow) (hj : j < ncol)
    (hnc : ∀ c ∈ cells, ¬(c.1 = i ∧ c.2.1 = j)) :
    (∀ v : ℚ, cellAt (losingArr arr) i j = some (some v) ↔
        cellAt arr i j = some (some v) ∧ 0 < v) ∧
    (∀ v : ℚ, cellAt (gainingArr arr) i j = some (some v) ↔
        cellAt arr i j = some (some v) ∧ v < 0) ∧
    (¬∃ v w : ℚ, cellAt (losingArr arr) i j = some (some v) ∧
        cellAt (gainingArr arr) i j = some (some w)) ∧
    (cellAt arr i j = some (some 0) ∨ cellAt arr i j = some none →
      cellAt (losingArr arr) i j = some none ∧ cellAt (gainingArr arr) i j = some none) ∧
    cellAt (buildQaquiferArr nrow ncol cells) i j = some none := by
  have hcellL : ∀ (c : Cell) (v : ℚ), losingCell c = some v ↔ c = some v ∧ 0 < v := by
    intro c v
    cases c with
    | none => simp [losingCell]
    | some w =>
        simp only [losingCell]
        by_cases hw : w ≤ 0
        · rw [if_pos hw]
          constructor
          · intro h; cases h
          · rintro ⟨hv, hpos⟩
            cases hv
            exact absurd hpos (not_lt.mpr hw)
        · rw [if_neg hw]
          constructor
          · intro h
            cases h
            exact ⟨rfl, lt_of_not_le hw⟩
          · rintro ⟨hv, _⟩
            cases hv
            rfl
  have hcellG : ∀ (c : Cell) (v : ℚ), gainingCell c = some v ↔ c = some v ∧ v < 0 := by
    intro c v
    cases c with
    | none => simp [gainingCell]
    | some w =>
        simp only [gainingCell]
        by_cases hw : 0 ≤ w
        · rw [if_pos hw]
          constructor
          · intro h; cases h
          · rintro ⟨hv, hneg⟩
            cases hv
            exact absurd hneg (not_lt.mpr hw)
        · rw [if_neg hw]
          constructor
          · intro h
            cases h
            exact ⟨rfl, lt_of_not_le hw⟩
          · rintro ⟨hv, _⟩
            cases hv
            rfl
  have hlose : ∀ v : ℚ, cellAt (losingArr arr) i j = some (some v) ↔
      cellAt arr i j = some (some v) ∧ 0 < v := by
    intro v
    unfold losingArr
    rw [cellAt_map]
    cases hc : cellAt arr i j with
    | none => simp
    | some c =>
        simp only [Option.map_some', Option.some.injEq]
        rw [hcellL c v]
  have hgain : ∀ v : ℚ, cellAt (gainingArr arr) i j = some (some v) ↔
      cellAt arr i j = some (some v) ∧ v < 0 := by
    intro v
    unfold gainingArr
    rw [cellAt_map]
    cases hc : cellAt arr i j with
    | none => simp
    | some c =>
        simp only [Option.map_some', Option.some.injEq]
        rw [hcellG c v]
  refine ⟨hlose, hgain, ?_, ?_, ?_⟩
  · rintro ⟨v, w, hv, hw⟩
    obtain ⟨hv1, hvpos⟩ := (hlose v).mp hv
    obtain ⟨hw1, hwneg⟩ := (hgain w).mp hw
    rw [hv1] at hw1
    cases hw1
    exact absurd hvpos (not_lt.mpr hwneg.le)
  · intro h
    unfold losingArr gainingArr
    rw [cellAt_map, cellAt_map]
    rcases h with h0 | hn
    · rw [h0]
      simp [losingCell, gainingCell]
    · rw [hn]
      simp [losingCell, gainingCell]
  · unfold buildQaquiferArr cellAt
    rw [List.getElem?_map, List.getElem?_range hi]
    simp only [Option.map_some', Option.some_bind]
    rw [List.getElem?_map, List.getElem?_range hj]
    simp only [Option.map_some']
    have hfil : cells.filter (fun c => decide (c.1 = i ∧ c.2.1 = j)) = [] := by
      rw [List.filter_eq_nil_iff]
      intro c hc
      simpa using hnc c hc
    rw [hfil]
    rfl

/-- Witness for C10 on a 2×2 grid with one positive, one negative and one zero
flux cell, checking the uncovered cell (1, 1). -/
theorem C10_losing_gaining_witness :
    cellAt (buildQaquiferArr 2 2 [(0, 0, 5), (0, 1, -3), (1, 0, 0)]) 1 1 = some none :=
  (C10_losing_gaining
    (buildQaquiferArr 2 2 [(0, 0, 5), (0, 1, -3), (1, 0, 0)]) 1 1 2 2
    [(0, 0, 5), (0, 1, -3), (1, 0, 0)]
    (by decide) (by decide) (by decide)).2.2.2.2

/-- A row of the gage-output table `ggo` after the kstp/kper columns are
attached: datetime (days), flow, and the (step, period) tags. -/
structure GgoRow where
  time : ℚ
  flow : ℚ
  kstp : ℕ
  kper : ℕ
deriving DecidableEq

/-- Embeds `ggo_last = ggo.groupby(ggo.kper).last()`: pandas groups the rows
by the kper key, sorts the group keys ascending, and takes the last row of
each group (the rows have no nulls, so `.last()` is the last row). -/
def groupbyLastKper (rows : List GgoRow) : List GgoRow :=
  (((rows.map GgoRow.kper).dedup).insertionSort (· ≤ ·)).filterMap
    (fun k => (rows.filter (fun r => decide (r.kper = k))).getLast?)

/-- The same grouping with the keys taken in `dedup` order (order of last
occurrence); for period-sorted rows this coincides with the sorted-key order. -/
def dedupGroupLast (rows : List GgoRow) : List GgoRow :=
  ((rows.map GgoRow.kper).dedup).filterMap
    (fun k => (rows.filter (fun r => decide (r.kper = k))).getLast?)

/-- Keep each row iff no later row carries the same period: the last-occurring
row of every period, in order of occurrence. -/
def lastOccPerKey : List GgoRow → List GgoRow
  | [] => []
  | r :: rest =>
      if rest.any (fun s => decide (s.kper = r.kper)) then lastOccPerKey rest
      else r :: lastOccPerKey rest

/-- Largest step index of a group of rows. -/
def maxKstp (g : List GgoRow) : ℕ := (g.map GgoRow.kstp).foldr max 0

/-- Modelled from the spec: "select for each distinct period the row with the
largest step index (ties broken by last-occurring row) and return one row per
period, ordered by period" — the declarative contract of the Last-Step
Aggregator, to be compared with the groupby-last code. -/
def lastStepSpec (rows : List GgoRow) : List GgoRow :=
  (((rows.map GgoRow.kper).dedup).insertionSort (· ≤ ·)).filterMap
    (fun k =>
      let g := rows.filter (fun r => decide (r.kper = k))
      (g.filter (fun r => decide (r.kstp = maxKstp g))).getLast?)

theorem getLast?_cons_of_ne_nil {α : Type} (a : α) (l : List α) (h : l ≠ []) :
    (a :: l).getLast? = l.getLast? := by
  cases l with
  | nil => exact absurd rfl h
  | cons x t => exact List.getLast?_cons_cons

theorem dedupGroupLast_eq_lastOcc :
    ∀ rows : List GgoRow, dedupGroupLast rows = lastOccPerKey rows
  | [] => rfl
  | r :: rest => by
      unfold dedupGroupLast
      by_cases hmem : r.kper ∈ rest.map GgoRow.kper
      · obtain ⟨s, hs, hsk⟩ := List.mem_map.mp hmem
        have hany : rest.any (fun s => decide (s.kper = r.kper)) = true := by
          rw [List.any_eq_true]
          exact ⟨s, hs, by simp [hsk]⟩
        rw [List.map_cons, List.dedup_cons_of_mem hmem]
        have hcongr : ∀ k ∈ (rest.map GgoRow.kper).dedup,
            ((r :: rest).filter (fun x => decide (x.kper = k))).getLast? =
              (rest.filter (fun x => decide (x.kper = k))).getLast? := by
          intro k _
          rw [List.filter_cons]
          by_cases hrk : r.kper = k
          · rw [if_pos (by simp [hrk])]
            have hmemf : s ∈ rest.filter (fun x => decide (x.kper = k)) :=
              List.mem_filter.mpr ⟨hs, by simp [hsk, hrk]⟩
            exact getLast?_cons_of_ne_nil r _ (List.ne_nil_of_mem hmemf)
          · rw [if_neg (by simp [hrk])]
        rw [List.filterMap_congr hcongr]
        have hrec := dedupGroupLast_eq_lastOcc rest
        unfold dedupGroupLast at hrec
        rw [hrec]
        simp [lastOccPerKey, hany]
      · have hany : rest.any (fun s => decide (s.kper = r.kper)) = false := by
          rw [List.any_eq_false]
          intro x hx
          simp only [decide_eq_true_eq]
          intro hxk
          exact hmem (List.mem_map.mpr ⟨x, hx, hxk⟩)
        rw [List.map_cons, List.dedup_cons_of_not_mem hmem]
        have hnil : rest.filter (fun x => decide (x.kper = r.kper)) = [] := by
          rw [List.filter_eq_nil_iff]
          intro x hx
          simp only [decide_eq_true_eq]
          intro hxk
          exact hmem (List.mem_map.mpr ⟨x, hx, hxk⟩)
        have hhead : ((r :: rest).filter (fun x => decide (x.kper = r.kper))).getLast? =
            some r := by
          rw [List.filter_cons, if_pos (by simp), hnil]
          rfl
        simp only [List.filterMap_cons, hhead]
        have hcongr : ∀ k ∈ (rest.map GgoRow.kper).dedup,
            ((r :: rest).filter (fun x => decide (x.kper = k))).getLast? =
              (rest.filter (fun x => decide (x.kper = k))).getLast? := by
          intro k hk
          have hrk : r.kper ≠ k := by
            intro he
            exact hmem (he ▸ List.mem_dedup.mp hk)
          rw [List.filter_cons, if_neg (by simp [hrk])]
        rw [List.filterMap_congr hcongr]
        have hrec := dedupGroupLast_eq_lastOcc rest
        unfold dedupGroupLast at hrec
        rw [hrec]
        simp [lastOccPerKey, hany]

theorem lastOcc_sublist : ∀ rows : List GgoRow, List.Sublist (lastOccPerKey rows) rows
  | [] => List.Sublist.refl []
  | r :: rest => by
      unfold lastOccPerKey
      by_cases hany : rest.any (fun s => decide (s.kper = r.kper)) = true
      · rw [if_pos hany]
        exact (lastOcc_sublist rest).cons r
      · rw [if_neg hany]
        exact (lastOcc_sublist rest).cons₂ r

theorem groupbyLast_eq_dedup (rows : List GgoRow)
    (h : rows.Pairwise (fun a b => a.kper ≤ b.kper)) :
    groupbyLastKper rows = dedupGroupLast rows := by
  unfold groupbyLastKper dedupGroupLast
  have hsorted : ((rows.map GgoRow.kper).dedup).Sorted (· ≤ ·) :=
    List.Pairwise.sublist (List.dedup_sublist _) (List.pairwise_map.mpr h)
  rw [List.Sorted.insertionSort_eq hsorted]

theorem foldr_max_le : ∀ (l : List ℕ) (x : ℕ), x ∈ l → x ≤ l.foldr max 0
  | [], x, hx => absurd hx (List.not_mem_nil x)
  | a :: t, x, hx => by
      rw [List.foldr_cons]
      rcases List.mem_cons.mp hx with h | h
      · exact h ▸ Nat.le_max_left a (t.foldr max 0)
      · exact le_trans (foldr_max_le t x h) (Nat.le_max_right a (t.foldr max 0))

theorem filter_max_getLast :
    ∀ g : List GgoRow, (g.map GgoRow.kstp).Pairwise (· ≤ ·) →
      (g.filter (fun r => decide (r.kstp = maxKstp g))).getLast? = g.getLast?
  | [] => fun _ => rfl
  | [r] => fun _ => by
      simp [maxKstp]
  | r :: s :: t => fun h => by
      rw [List.map_cons, List.pairwise_cons] at h
      have hrs : r.kstp ≤ s.kstp := h.1 s.kstp (by simp)
      have htail : ((s :: t).map GgoRow.kstp).Pairwise (· ≤ ·) := h.2
      have hsM : s.kstp ≤ maxKstp (s :: t) := foldr_max_le _ _ (by simp [maxKstp])
      have hM : maxKstp (r :: s :: t) = maxKstp (s :: t) := by
        unfold maxKstp
        rw [List.map_cons, List.foldr_cons]
        exact Nat.max_eq_right (le_trans hrs hsM)
      have ihr := filter_max_getLast (s :: t) htail
      have hne : (s :: t).filter (fun x => decide (x.kstp = maxKstp (s :: t))) ≠ [] := by
        intro hnil
        have hsome := List.getLast?_isSome.mpr (List.cons_ne_nil s t)
        rw [← ihr, hnil] at hsome
        simp at hsome
      rw [hM, List.filter_cons]
      by_cases hrM : r.kstp = maxKstp (s :: t)
      · rw [if_pos (by simp [hrM])]
        rw [getLast?_cons_of_ne_nil r _ hne, ihr, List.getLast?_cons_cons]
      · rw [if_neg (by simp [hrM])]
        rw [ihr, List.getLast?_cons_cons]

theorem map_kper_filterMap_getLast (rows : List GgoRow) :
    ∀ keys : List ℕ, (∀ k ∈ keys, ∃ r ∈ rows, r.kper = k) →
      ((keys.filterMap
          (fun k => (rows.filter (fun r => decide (r.kper = k))).getLast?)).map GgoRow.kper)
        = keys
  | [], _ => rfl
  | k :: ks, h => by
      obtain ⟨r, hr, hrk⟩ := h k (by simp)
      have hne : rows.filter (fun x => decide (x.kper = k)) ≠ [] :=
        List.ne_nil_of_mem (List.mem_filter.mpr ⟨hr, by simp [hrk]⟩)
      obtain ⟨a, ha⟩ := Option.isSome_iff_exists.mp (List.getLast?_isSome.mpr hne)
      have hak : a.kper = k := by
        have := List.mem_filter.mp (List.mem_of_getLast?_eq_some ha)
        simpa using this.2
      simp only [List.filterMap_cons, ha, List.map_cons]
      rw [hak, map_kper_filterMap_getLast rows ks (fun k2 hk2 => h k2 (by simp [hk2]))]

/-- The worked example of the spec: periods [0,0,1,1,1], steps [0,1,0,1,2],
flows [10,20,30,40,50]. -/
def exGgo : List GgoRow :=
  [⟨1, 10, 0, 0⟩, ⟨2, 20, 1, 0⟩, ⟨3, 30, 0, 1⟩, ⟨4, 40, 1, 1⟩, ⟨5, 50, 2, 1⟩]

/-- C2 (counterexample): on rows that are ordered by period but whose step
index decreases inside the period, the groupby-last code returns the
last-occurring row, not the row with the largest step index demanded by the
claim — so the claim as stated fails. -/
theorem C2_last_step_counterexample :
    ([⟨1, 10, 1, 0⟩, ⟨2, 20, 0, 0⟩] : List GgoRow).Pairwise (fun a b => a.kper ≤ b.kper) ∧
    groupbyLastKper [⟨1, 10, 1, 0⟩, ⟨2, 20, 0, 0⟩] = [⟨2, 20, 0, 0⟩] ∧
    lastStepSpec [⟨1, 10, 1, 0⟩, ⟨2, 20, 0, 0⟩] = [⟨1, 10, 1, 0⟩] := by
  refine ⟨by decide, by decide, by decide⟩

/-- C2 (amended): for rows ordered by period with step indices non-decreasing
within each period, the Last-Step Aggregator returns exactly one row per
distinct period, ordered (strictly increasing) by period, and that row is the
largest-step row of the period (ties broken by last occurrence) — it equals
the declarative largest-step selection; on the spec's example it returns
period 0 ↦ flow 20 and period 1 ↦ flow 50. -/
theorem C2_last_step_aggregator (rows : List GgoRow)
    (hlex : rows.Pairwise
      (fun a b => a.kper < b.kper ∨ (a.kper = b.kper ∧ a.kstp ≤ b.kstp))) :
    (groupbyLastKper rows).map GgoRow.kper = (rows.map GgoRow.kper).dedup ∧
    ((groupbyLastKper rows).map GgoRow.kper).Pairwise (· < ·) ∧
    groupbyLastKper rows = lastStepSpec rows ∧
    (groupbyLastKper exGgo).map (fun r => (r.kper, r.flow)) = [(0, 20), (1, 50)] := by
  have hper : rows.Pairwise (fun a b => a.kper ≤ b.kper) := by
    refine hlex.imp ?_
    rintro a b (hlt | ⟨heq, _⟩)
    · exact le_of_lt hlt
    · exact le_of_eq heq
  have hkeys1 : groupbyLastKper rows = dedupGroupLast rows := groupbyLast_eq_dedup rows hper
  have hkeysmem : ∀ k ∈ (rows.map GgoRow.kper).dedup, ∃ r ∈ rows, r.kper = k := by
    intro k hk
    exact List.mem_map.mp (List.mem_dedup.mp hk)
  have hmapkeys : (groupbyLastKper rows).map GgoRow.kper = (rows.map GgoRow.kper).dedup := by
    rw [hkeys1]
    unfold dedupGroupLast
    exact map_kper_filterMap_getLast rows _ hkeysmem
  refine ⟨hmapkeys, ?_, ?_, by decide⟩
  · rw [hmapkeys]
    have hsorted : ((rows.map GgoRow.kper).dedup).Pairwise (· ≤ ·) :=
      List.Pairwise.sublist (List.dedup_sublist _) (List.pairwise_map.mpr hper)
    have hnodup : ((rows.map GgoRow.kper).dedup).Pairwise (· ≠ ·) := List.nodup_dedup _
    exact (hsorted.and hnodup).imp (fun hab => lt_of_le_of_ne hab.1 hab.2)
  · unfold groupbyLastKper lastStepSpec
    refine List.filterMap_congr ?_
    intro k _
    have hglex : (rows.filter (fun r => decide (r.kper = k))).Pairwise
        (fun a b => a.kper < b.kper ∨ (a.kper = b.kper ∧ a.kstp ≤ b.kstp)) :=
      hlex.filter _
    have hgstep : ((rows.filter (fun r => decide (r.kper = k))).map GgoRow.kstp).Pairwise
        (· ≤ ·) := by
      refine List.pairwise_map.mpr (hglex.imp_of_mem ?_)
      intro a b ha hb hab
      have hak : a.kper = k := by simpa using (List.mem_filter.mp ha).2
      have hbk : b.kper = k := by simpa using (List.mem_filter.mp hb).2
      rcases hab with hlt | ⟨_, hle⟩
      · rw [hak, hbk] at hlt
        exact absurd hlt (lt_irrefl k)
      · exact hle
    exact (filter_max_getLast _ hgstep).symm

/-- Witness for C2's amended theorem on the spec's five-row example. -/
theorem C2_last_step_aggregator_witness :
    (groupbyLastKper exGgo).map GgoRow.kper = (exGgo.map GgoRow.kper).dedup ∧
    ((groupbyLastKper exGgo).map GgoRow.kper).Pairwise (· < ·) ∧
    groupbyLastKper exGgo = lastStepSpec exGgo ∧
    (groupbyLastKper exGgo).map (fun r => (r.kper, r.flow)) = [(0, 20), (1, 50)] :=
  C2_last_step_aggregator exGgo (by decide)

/-- C8: the Time Mapper turns strictly increasing day offsets into strictly
increasing timestamps, and on period-sorted rows the Last-Step Aggregator's
output is an order-preserving subsequence of its input, so strictly increasing
timestamps (no duplicate keys) are preserved through the pipeline. -/
theorem C8_monotone_invariant (t0 : ℚ) (ds : List ℚ) (rows : List GgoRow)
    (hds : ds.Pairwise (· < ·))
    (hper : rows.Pairwise (fun a b => a.kper ≤ b.kper)) :
    (ds.map (timeMapper t0)).Pairwise (· < ·) ∧
    List.Sublist (groupbyLastKper rows) rows ∧
    (rows.Pairwise (fun a b => a.time < b.time) →
      (groupbyLastKper rows).Pairwise (fun a b => a.time < b.time)) := by
  have hsub : List.Sublist (groupbyLastKper rows) rows := by
    rw [groupbyLast_eq_dedup rows hper, dedupGroupLast_eq_lastOcc rows]
    exact lastOcc_sublist rows
  refine ⟨?_, hsub, ?_⟩
  · refine List.pairwise_map.mpr (hds.imp ?_)
    intro a b hab
    exact add_lt_add_left hab t0
  · intro htime
    exact List.Pairwise.sublist hsub htime

/-- Witness for C8 on concrete strictly increasing offsets and the five-row
example. -/
theorem C8_monotone_invariant_witness :
    (([(1 : ℚ), 2].map (timeMapper 0)).Pairwise (· < ·)) ∧
    List.Sublist (groupbyLastKper exGgo) exGgo ∧
    (exGgo.Pairwise (fun a b => a.time < b.time) →
      (groupbyLastKper exGgo).Pairwise (fun a b => a.time < b.time)) :=
  C8_monotone_invariant 0 [1, 2] exGgo (by decide) (by decide)

end FlopyNB
